import Mathlib

/-!
Shallow embedding of the sparse-matrix container implemented in
src/src/sparsematrix.h, together with theorems checking the natural-language
specification against it.

The C++ class `SparseMatrix<T>` keeps its explicitly stored elements in a
singly linked list of `element` records ordered strictly by row-major
`(i, j)` key.  Here the list of nodes is a `List (Element α)`, and the data
members `_rows`, `_cols`, `_D`, `_size` become the fields of the structure
`SparseMatrix`.  Machine `unsigned int` coordinates are modelled as `Nat`;
fallible operations (`get`, the transactional copy) return `Except`/`Option`.
-/

/-- Embedding of `SparseMatrix<T>::element`: position `(i, j)` plus payload. -/
structure Element (α : Type) where
  i : Nat
  j : Nat
  value : α
deriving DecidableEq, Repr

/-- Embedding of the `SparseMatrix<T>` data members: `_rows`, `_cols`, `_D`
(default value), `_size` (stored-entry count) and the linked list of nodes
(`_head` chain) as `storage`. -/
structure SparseMatrix (α : Type) where
  rows : Nat
  cols : Nat
  D : α
  size : Nat
  storage : List (Element α)
deriving DecidableEq, Repr

/-- Row-major strict order on element keys, the comparison both `add` and
`get` use in sparsematrix.h: `a < b` iff `a.i < b.i`, or `a.i = b.i` and
`a.j < b.j`. -/
def ltKey {α : Type} (a b : Element α) : Prop :=
  a.i < b.i ∨ (a.i = b.i ∧ a.j < b.j)

instance {α : Type} (a b : Element α) : Decidable (ltKey a b) := by
  unfold ltKey; exact inferInstance

/-- Loop condition of the scan in `SparseMatrix::get` (line 179):
advance while the node key is `≤ (i, j)` in row-major order, written in the
source as `key.i < i || (key.i == i && key.j <= j)`. -/
def leTarget {α : Type} (i j : Nat) (e : Element α) : Prop :=
  e.i < i ∨ (e.i = i ∧ e.j ≤ j)

instance {α : Type} (i j : Nat) (e : Element α) : Decidable (leTarget i j e) := by
  unfold leTarget; exact inferInstance

/-- Embedding of the list walk in `SparseMatrix::add` (lines 375-414): scan
past every node whose key is strictly below the new element's key; then
either replace the node with equal key (second component `true`), or splice
the new element in before the first greater node (second component
`false`). -/
def insertSorted {α : Type} (e : Element α) : List (Element α) → List (Element α) × Bool
  | [] => ([e], false)
  | x :: t =>
    if ltKey x e then
      let r := insertSorted e t
      (x :: r.1, r.2)
    else if x.i = e.i ∧ x.j = e.j then
      (e :: t, true)
    else
      (e :: x :: t, false)

/-- Embedding of `SparseMatrix::add` (lines 354-415): grow `_rows`/`_cols`
to `i+1`/`j+1` when the new element lies outside them, insert or replace in
the ordered storage, and increment `_size` only when no node was replaced. -/
def SparseMatrix.add {α : Type} (m : SparseMatrix α) (i j : Nat) (v : α) : SparseMatrix α :=
  let p := insertSorted ⟨i, j, v⟩ m.storage
  { rows := if i + 1 > m.rows then i + 1 else m.rows
    cols := if j + 1 > m.cols then j + 1 else m.cols
    D := m.D
    size := if p.2 then m.size else m.size + 1
    storage := p.1 }

/-- Embedding of `SparseMatrix::clear` (lines 462-467): delete every node,
reset `_size` to 0; `_rows`, `_cols` and `_D` are not touched. -/
def SparseMatrix.clear {α : Type} (m : SparseMatrix α) : SparseMatrix α :=
  { m with size := 0, storage := [] }

/-- The two error kinds of the specification's error model. `out_of_range`
thrown by `SparseMatrix::get` becomes `outOfBounds`; the dimension check of
multiplication becomes `dimensionMismatch`. -/
inductive MatrixErr where
  | outOfBounds
  | dimensionMismatch
deriving DecidableEq, Repr

instance {ε α : Type} [DecidableEq ε] [DecidableEq α] : DecidableEq (Except ε α) := fun x y =>
  match x, y with
  | .ok a, .ok b =>
    if h : a = b then isTrue (by rw [h]) else isFalse (by intro hc; injection hc; contradiction)
  | .error a, .error b =>
    if h : a = b then isTrue (by rw [h]) else isFalse (by intro hc; injection hc; contradiction)
  | .ok _, .error _ => isFalse (by intro h; exact Except.noConfusion h)
  | .error _, .ok _ => isFalse (by intro h; exact Except.noConfusion h)

/-- Embedding of the `prev`/`n` walk in `SparseMatrix::get` (lines 177-182):
`prev` trails the scan, which advances while the current node key satisfies
`leTarget`. The function returns the final value of `prev`. -/
def getAux {α : Type} (i j : Nat) (prev : Element α) : List (Element α) → Element α
  | [] => prev
  | x :: t => if leTarget i j x then getAux i j x t else prev

/-- Embedding of `SparseMatrix::get` (lines 169-189): bounds check first
(`throw out_of_range` when `i ≥ _rows` or `j ≥ _cols`), then return `_D` on
empty storage, otherwise walk the list with `getAux` starting with both
`prev` and `n` at the head and return `prev`'s value when its key is exactly
`(i, j)`, else `_D`. -/
def SparseMatrix.get {α : Type} (m : SparseMatrix α) (i j : Nat) : Except MatrixErr α :=
  if i ≥ m.rows ∨ j ≥ m.cols then .error .outOfBounds
  else
    match m.storage with
    | [] => .ok m.D
    | h :: t =>
      let p := getAux i j h (h :: t)
      if p.i = i ∧ p.j = j then .ok p.value else .ok m.D

/-- Embedding of `SparseMatrix::operator()` as used at in-range coordinates
(for instance inside `evaluate`, whose loop indices satisfy `i < rows`,
`j < cols`, so `get` never throws there); the error branch is dead at every
use site inside the source. -/
def SparseMatrix.val {α : Type} (m : SparseMatrix α) (i j : Nat) : α :=
  match m.get i j with
  | .ok v => v
  | .error _ => m.D

/-- Reference association lookup on the storage list: the value of the entry
with key `(i, j)`, if present. -/
def findVal {α : Type} (i j : Nat) (l : List (Element α)) : Option α :=
  (l.find? (fun e => decide (e.i = i ∧ e.j = j))).map Element.value

/-- Logical cell content read directly off the storage list: the stored
value at `(i, j)` when an entry exists, the default otherwise. -/
def SparseMatrix.valueAt {α : Type} (m : SparseMatrix α) (i j : Nat) : α :=
  (findVal i j m.storage).getD m.D

/-- Embedding of the constructor `SparseMatrix(const T& D)` (line 198):
dimensionless matrix, empty storage. -/
def SparseMatrix.ofD {α : Type} (D : α) : SparseMatrix α :=
  { rows := 0, cols := 0, D := D, size := 0, storage := [] }

/-- Embedding of the constructors taking `rows`, `cols` and `D`
(lines 213 and 231): explicit extents, empty storage (the source `assert`s
positivity; asserts are not part of release semantics). -/
def SparseMatrix.ofDims {α : Type} (rows cols : Nat) (D : α) : SparseMatrix α :=
  { rows := rows, cols := cols, D := D, size := 0, storage := [] }

/-- Well-formedness invariant of a reachable matrix: storage strictly
increasing in row-major key order, `_size` equal to the storage length, and
every stored entry inside the declared extents. -/
def WF {α : Type} (m : SparseMatrix α) : Prop :=
  List.Pairwise ltKey m.storage ∧ m.size = m.storage.length ∧
    ∀ e ∈ m.storage, e.i < m.rows ∧ e.j < m.cols

instance {α : Type} (m : SparseMatrix α) : Decidable (WF m) := by
  unfold WF; exact inferInstance

/-- Embedding of the free function `evaluate` (sparsematrix.h lines
727-747): scan the whole logical grid; count a cell when the predicate holds
of its element; otherwise, when the cell's value equals the matrix default
(`e1.value == m.D()` in the source), test the element rebuilt with the
default value and count when that test passes. -/
def evaluate {α : Type} [DecidableEq α] (m : SparseMatrix α) (p : Element α → Bool) : Nat :=
  (List.range m.rows).foldl (fun c i =>
    (List.range m.cols).foldl (fun c j =>
      let e1 : Element α := ⟨i, j, m.val i j⟩
      if p e1 then c + 1
      else if e1.value = m.D then
        (if p ⟨i, j, m.D⟩ then c + 1 else c)
      else c) c) 0

/-- Embedding of the element loop of the private `SparseMatrix::copy`
(lines 146-149): convert each source element and `add` it; a failing
conversion aborts the loop (the C++ `static_cast` throw). -/
def copyLoop {α β : Type} (f : β → Option α) (m : SparseMatrix α) :
    List (Element β) → Option (SparseMatrix α)
  | [] => some m
  | e :: t =>
    match f e.value with
    | some v => copyLoop f (m.add e.i e.j v) t
    | none => none

/-- Embedding of the private `SparseMatrix::copy` (lines 132-159): back up
`_rows`, `_cols`, `_D`; install the source extents, the converted default
and the converted elements; on any failure restore the backups, `clear()`
the storage, and propagate the failure (the `Except.error` payload is the
state the target is left in). -/
def copyFrom {α β : Type} (f : β → Option α) (tgt : SparseMatrix α)
    (src : SparseMatrix β) : Except (SparseMatrix α) (SparseMatrix α) :=
  let bad : SparseMatrix α :=
    { rows := tgt.rows, cols := tgt.cols, D := tgt.D, size := 0, storage := [] }
  match f src.D with
  | none => .error bad
  | some d =>
    match copyLoop f { tgt with rows := src.rows, cols := src.cols, D := d } src.storage with
    | some m => .ok m
    | none => .error bad

/-- Embedding of `SparseMatrix::operator=` (lines 281-297): copy-and-swap.
A temporary is copy-constructed from `src` (fresh state `0, 0, z, 0, []`,
as in the copy constructor's initialiser list, then `copy`); on success the
swap installs it, on failure the target keeps its old state and the failure
propagates. -/
def assignSame {α : Type} (f : α → Option α) (z : α) (tgt src : SparseMatrix α) :
    Except (SparseMatrix α) (SparseMatrix α) :=
  match copyFrom f { rows := 0, cols := 0, D := z, size := 0, storage := [] } src with
  | .ok tmp => .ok tmp
  | .error _ => .error tgt

/-- Mutating operations a caller can apply to a matrix: `add`, `clear`, and
the default-value setter `D()` (line 347). -/
inductive MOp (α : Type) where
  | ins (i j : Nat) (v : α)
  | cl
  | setD (d : α)

/-- Apply one mutating operation. -/
def applyOp {α : Type} (m : SparseMatrix α) : MOp α → SparseMatrix α
  | .ins i j v => m.add i j v
  | .cl => m.clear
  | .setD d => { m with D := d }

/-- Apply a sequence of mutating operations in order. -/
def applyOps {α : Type} (m : SparseMatrix α) (ops : List (MOp α)) : SparseMatrix α :=
  ops.foldl applyOp m

/-- Modelled from the spec: the matrix multiplication `operator*` is called
by the demonstration program (`m4 * m5` in main.cpp line 136) but its
definition is not among the repository's source files, so the inner step is
taken from section 4.4 of the specification: for a pair of stored entries
sharing the inner index (`A_entry.col == B_entry.row`), read the currently
accumulated result cell (default via the result's default value), add the
product, and insert it back. -/
def mulStep (a b : Element Int) (r : SparseMatrix Int) : SparseMatrix Int :=
  if a.j = b.i then r.add a.i b.j (r.valueAt a.i b.j + a.value * b.value) else r

/-- Modelled from the spec: `multiply(A, B)` (section 4.4), absent from the
source files. Fails with a dimension-mismatch error unless
`A.cols == B.rows`; otherwise starts from an `A.rows × B.cols` result with
default `A.D` and empty storage, and runs the nested iteration over `A`'s
stored entries (outer) and `B`'s stored entries (inner). -/
def multiply (A B : SparseMatrix Int) : Except MatrixErr (SparseMatrix Int) :=
  if A.cols = B.rows then
    .ok (A.storage.foldl (fun r a => B.storage.foldl (fun r b => mulStep a b r) r)
      { rows := A.rows, cols := B.cols, D := A.D, size := 0, storage := [] })
  else .error .dimensionMismatch

/-- The value of the most recent insert at `(i, j)` in an insertion history,
if any: later entries shadow earlier ones. -/
def lastIns {α : Type} (hist : List (Nat × Nat × α)) (i j : Nat) : Option α :=
  hist.foldl (fun acc q => if q.1 = i ∧ q.2.1 = j then some q.2.2 else acc) none

/-- Replay an insertion history through `add`. -/
def runIns {α : Type} (m : SparseMatrix α) (hist : List (Nat × Nat × α)) : SparseMatrix α :=
  hist.foldl (fun m q => m.add q.1 q.2.1 q.2.2) m

/-- Written from the specification's words about the evaluate fallback
(section 4.5): a cell whose stored value is NOT the matrix's current default
and on which the predicate fails is additionally tested against the default
value and counted when that fallback test passes; every other cell is tested
once. Stated per logical cell over the whole grid, to be compared with the
source-derived `evaluate`. -/
def evaluateTwoTest {α : Type} [DecidableEq α] (m : SparseMatrix α)
    (p : Element α → Bool) : Nat :=
  ∑ i in Finset.range m.rows, ∑ j in Finset.range m.cols,
    (if p ⟨i, j, m.val i j⟩ then 1
     else if m.val i j ≠ m.D ∧ p ⟨i, j, m.D⟩ = true then 1 else 0)

/-- Written from the amended description of the evaluate fallback: the
fallback test against the default value runs exactly when the cell's value
already EQUALS the current default (so it repeats the failed first test and
never adds to the count); a cell whose value differs from the default is
tested exactly once. -/
def evaluateDefaultEcho {α : Type} [DecidableEq α] (m : SparseMatrix α)
    (p : Element α → Bool) : Nat :=
  ∑ i in Finset.range m.rows, ∑ j in Finset.range m.cols,
    (if p ⟨i, j, m.val i j⟩ then 1
     else if m.val i j = m.D ∧ p ⟨i, j, m.D⟩ = true then 1 else 0)

/-- A 1×1 matrix with default 0 and one stored entry 5 at the origin. -/
def exM : SparseMatrix Int := (SparseMatrix.ofD 0).add 0 0 5

/-- Predicate satisfied exactly by the value 0. -/
def exP : Element Int → Bool := fun e => decide (e.value = 0)

/-- Left operand of the specification's multiplication scenario: 2×2,
default 0, single entry 4 at (0, 1). -/
def exA : SparseMatrix Int := (SparseMatrix.ofDims 2 2 0).add 0 1 4

/-- Right operand of the specification's multiplication scenario: 2×2,
default 0, single entry 3 at (1, 0). -/
def exB : SparseMatrix Int := (SparseMatrix.ofDims 2 2 0).add 1 0 3

/-- A conversion that fails exactly on the value 5. -/
def exConv : Int → Option Int := fun v => if v = 5 then none else some v

/-- A 3×4 matrix with default 7 and no stored entries. -/
def exTgt : SparseMatrix Int := SparseMatrix.ofDims 3 4 7

/-- The specification's two-insert scenario: default 0, insert (1,1)=4 then
(0,0)=2. -/
def exC8 : SparseMatrix Int := ((SparseMatrix.ofD 0).add 1 1 4).add 0 0 2

section OrderLemmas

variable {α β : Type}

theorem ltKey_trans {a b c : Element α} (hab : ltKey a b) (hbc : ltKey b c) : ltKey a c := by
  unfold ltKey at *; omega

theorem ltKey_of_not {x e : Element α} (h1 : ¬ ltKey x e)
    (h2 : ¬ (x.i = e.i ∧ x.j = e.j)) : ltKey e x := by
  unfold ltKey at *; omega

theorem not_eq_of_ltKey {x e : Element α} (h : ltKey x e) : ¬ (x.i = e.i ∧ x.j = e.j) := by
  unfold ltKey at h; omega

theorem not_leTarget_of_ltKey {i j : Nat} {x y : Element α} (h1 : ¬ leTarget i j x)
    (h2 : ltKey x y) : ¬ leTarget i j y := by
  unfold leTarget at *; unfold ltKey at h2; omega

theorem not_keyEq_of_not_leTarget {i j : Nat} {x : Element α} (h : ¬ leTarget i j x) :
    ¬ (x.i = i ∧ x.j = j) := by
  unfold leTarget at h; omega

end OrderLemmas

section InsertLemmas

variable {α : Type}

theorem insertSorted_mem {e y : Element α} :
    ∀ {l : List (Element α)}, y ∈ (insertSorted e l).1 → y ∈ l ∨ y = e := by
  intro l
  induction l with
  | nil => intro h; simp [insertSorted] at h; simp [h]
  | cons x t ih =>
    intro h
    unfold insertSorted at h
    by_cases h1 : ltKey x e
    · simp only [if_pos h1, List.mem_cons] at h
      rcases h with h | h
      · exact Or.inl (by simp [h])
      · rcases ih h with h2 | h2
        · exact Or.inl (List.mem_cons_of_mem _ h2)
        · exact Or.inr h2
    · by_cases h2 : x.i = e.i ∧ x.j = e.j
      · simp only [if_neg h1, if_pos h2, List.mem_cons] at h
        rcases h with h | h
        · exact Or.inr h
        · exact Or.inl (List.mem_cons_of_mem _ h)
      · simp only [if_neg h1, if_neg h2, List.mem_cons] at h
        rcases h with h | h | h
        · exact Or.inr h
        · exact Or.inl (by simp [h])
        · exact Or.inl (List.mem_cons_of_mem _ h)

theorem insertSorted_sorted {e : Element α} :
    ∀ {l : List (Element α)}, List.Pairwise ltKey l →
      List.Pairwise ltKey (insertSorted e l).1 := by
  intro l
  induction l with
  | nil => intro _; simp [insertSorted]
  | cons x t ih =>
    intro hs
    rcases List.pairwise_cons.mp hs with ⟨hx, ht⟩
    unfold insertSorted
    by_cases h1 : ltKey x e
    · simp only [if_pos h1]
      refine List.pairwise_cons.mpr ⟨?_, ih ht⟩
      intro y hy
      rcases insertSorted_mem hy with h2 | h2
      · exact hx y h2
      · rw [h2]; exact h1
    · by_cases h2 : x.i = e.i ∧ x.j = e.j
      · simp only [if_neg h1, if_pos h2]
        refine List.pairwise_cons.mpr ⟨?_, ht⟩
        intro y hy
        have := hx y hy
        unfold ltKey at *; omega
      · simp only [if_neg h1, if_neg h2]
        have he : ltKey e x := ltKey_of_not h1 h2
        refine List.pairwise_cons.mpr ⟨?_, hs⟩
        intro y hy
        rcases List.mem_cons.mp hy with h3 | h3
        · rw [h3]; exact he
        · exact ltKey_trans he (hx y h3)

theorem findVal_nil {i j : Nat} : findVal i j ([] : List (Element α)) = none := by
  simp [findVal]

theorem findVal_cons {i j : Nat} {x : Element α} {l : List (Element α)} :
    findVal i j (x :: l) =
      if x.i = i ∧ x.j = j then some x.value else findVal i j l := by
  by_cases h : x.i = i ∧ x.j = j <;> simp [findVal, List.find?_cons, h]

theorem insertSorted_findVal {e : Element α} (i j : Nat) :
    ∀ (l : List (Element α)),
      findVal i j (insertSorted e l).1 =
        if e.i = i ∧ e.j = j then some e.value else findVal i j l := by
  intro l
  induction l with
  | nil =>
    show findVal i j [e] = _
    rw [findVal_cons, findVal_nil]
  | cons x t ih =>
    unfold insertSorted
    by_cases h1 : ltKey x e
    · simp only [if_pos h1]
      show findVal i j (x :: (insertSorted e t).1) = _
      rw [findVal_cons, ih, findVal_cons]
      by_cases hx : x.i = i ∧ x.j = j
      · have hne : ¬ (e.i = i ∧ e.j = j) := by unfold ltKey at h1; omega
        simp [hx, hne]
      · simp [hx]
    · by_cases h2 : x.i = e.i ∧ x.j = e.j
      · simp only [if_neg h1, if_pos h2]
        show findVal i j (e :: t) = _
        rw [findVal_cons, findVal_cons]
        by_cases he : e.i = i ∧ e.j = j
        · simp [he]
        · have hx : ¬ (x.i = i ∧ x.j = j) := by omega
          simp [he, hx]
      · simp only [if_neg h1, if_neg h2]
        show findVal i j (e :: x :: t) = _
        rw [findVal_cons]

theorem insertSorted_replaced {e : Element α} :
    ∀ {l : List (Element α)}, List.Pairwise ltKey l →
      ((insertSorted e l).2 = true ↔ ∃ x ∈ l, x.i = e.i ∧ x.j = e.j) := by
  intro l
  induction l with
  | nil => intro _; simp [insertSorted]
  | cons x t ih =>
    intro hs
    rcases List.pairwise_cons.mp hs with ⟨hx, ht⟩
    unfold insertSorted
    by_cases h1 : ltKey x e
    · simp only [if_pos h1]
      rw [ih ht]
      constructor
      · rintro ⟨y, hy, h⟩; exact ⟨y, List.mem_cons_of_mem _ hy, h⟩
      · rintro ⟨y, hy, h⟩
        rcases List.mem_cons.mp hy with h3 | h3
        · exact absurd (h3 ▸ h) (not_eq_of_ltKey h1)
        · exact ⟨y, h3, h⟩
    · by_cases h2 : x.i = e.i ∧ x.j = e.j
      · simp only [if_neg h1, if_pos h2]
        simp only [true_iff]
        exact ⟨x, List.mem_cons_self x t, h2⟩
      · simp only [if_neg h1, if_neg h2]
        have he : ltKey e x := ltKey_of_not h1 h2
        constructor
        · intro h; exact Bool.noConfusion h
        · rintro ⟨y, hy, h⟩
          exfalso
          rcases List.mem_cons.mp hy with h3 | h3
          · exact h2 (h3 ▸ h)
          · have := ltKey_trans he (hx y h3)
            unfold ltKey at this; omega

theorem insertSorted_length {e : Element α} :
    ∀ (l : List (Element α)),
      (insertSorted e l).1.length =
        if (insertSorted e l).2 then l.length else l.length + 1 := by
  intro l
  induction l with
  | nil => simp [insertSorted]
  | cons x t ih =>
    unfold insertSorted
    by_cases h1 : ltKey x e
    · simp only [if_pos h1, List.length_cons]
      rw [ih]
      by_cases h : (insertSorted e t).2 <;> simp [h]
    · by_cases h2 : x.i = e.i ∧ x.j = e.j
      · simp [if_neg h1, if_pos h2]
      · simp [if_neg h1, if_neg h2]

theorem insertSorted_append {e : Element α} :
    ∀ {l : List (Element α)}, (∀ x ∈ l, ltKey x e) →
      insertSorted e l = (l ++ [e], false) := by
  intro l
  induction l with
  | nil => intro _; simp [insertSorted]
  | cons x t ih =>
    intro h
    have hx : ltKey x e := h x (List.mem_cons_self x t)
    unfold insertSorted
    simp [if_pos hx, ih (fun y hy => h y (List.mem_cons_of_mem _ hy))]

end InsertLemmas

section AddLemmas

variable {α : Type}

theorem add_D (m : SparseMatrix α) (i j : Nat) (v : α) : (m.add i j v).D = m.D := rfl

theorem add_rows (m : SparseMatrix α) (i j : Nat) (v : α) :
    (m.add i j v).rows = if i + 1 > m.rows then i + 1 else m.rows := rfl

theorem add_cols (m : SparseMatrix α) (i j : Nat) (v : α) :
    (m.add i j v).cols = if j + 1 > m.cols then j + 1 else m.cols := rfl

theorem add_storage (m : SparseMatrix α) (i j : Nat) (v : α) :
    (m.add i j v).storage = (insertSorted ⟨i, j, v⟩ m.storage).1 := rfl

theorem add_size (m : SparseMatrix α) (i j : Nat) (v : α) :
    (m.add i j v).size =
      if (insertSorted ⟨i, j, v⟩ m.storage).2 then m.size else m.size + 1 := rfl

theorem rows_le_add (m : SparseMatrix α) (i j : Nat) (v : α) :
    m.rows ≤ (m.add i j v).rows := by
  rw [add_rows]; split <;> omega

theorem cols_le_add (m : SparseMatrix α) (i j : Nat) (v : α) :
    m.cols ≤ (m.add i j v).cols := by
  rw [add_cols]; split <;> omega

theorem succ_le_add_rows (m : SparseMatrix α) (i j : Nat) (v : α) :
    i + 1 ≤ (m.add i j v).rows := by
  rw [add_rows]; split <;> omega

theorem succ_le_add_cols (m : SparseMatrix α) (i j : Nat) (v : α) :
    j + 1 ≤ (m.add i j v).cols := by
  rw [add_cols]; split <;> omega

theorem add_WF {m : SparseMatrix α} (h : WF m) (i j : Nat) (v : α) : WF (m.add i j v) := by
  obtain ⟨hs, hn, hb⟩ := h
  refine ⟨?_, ?_, ?_⟩
  · rw [add_storage]; exact insertSorted_sorted hs
  · rw [add_size, add_storage, insertSorted_length, hn]
  · intro e he
    rw [add_storage] at he
    rcases insertSorted_mem he with h1 | h1
    · have := hb e h1
      have h2 := rows_le_add m i j v
      have h3 := cols_le_add m i j v
      omega
    · subst h1
      exact ⟨succ_le_add_rows m i j v, succ_le_add_cols m i j v⟩

theorem valueAt_add (m : SparseMatrix α) (i j : Nat) (v : α) (p q : Nat) :
    (m.add i j v).valueAt p q =
      if i = p ∧ j = q then v else m.valueAt p q := by
  unfold SparseMatrix.valueAt
  rw [add_storage, insertSorted_findVal, add_D]
  by_cases h : i = p ∧ j = q
  · simp [h]
  · simp only [show (⟨i, j, v⟩ : Element α).i = i from rfl,
      show (⟨i, j, v⟩ : Element α).j = j from rfl, if_neg h]

end AddLemmas

section GetLemmas

variable {α : Type}

theorem findVal_eq_none_of_gt {i j : Nat} {x : Element α} {t : List (Element α)}
    (h : ¬ leTarget i j x) (hs : List.Pairwise ltKey (x :: t)) :
    findVal i j (x :: t) = none := by
  unfold findVal
  rw [Option.map_eq_none', List.find?_eq_none]
  intro a ha
  rcases List.mem_cons.mp ha with h1 | h1
  · subst h1
    simpa using not_keyEq_of_not_leTarget h
  · have hlt := (List.pairwise_cons.mp hs).1 a h1
    simpa using not_keyEq_of_not_leTarget (not_leTarget_of_ltKey h hlt)

theorem getAux_nil (i j : Nat) (prev : Element α) : getAux i j prev [] = prev := rfl

theorem getAux_cons (i j : Nat) (prev x : Element α) (t : List (Element α)) :
    getAux i j prev (x :: t) = if leTarget i j x then getAux i j x t else prev := rfl

theorem getAux_spec (i j : Nat) :
    ∀ (l : List (Element α)) (prev : Element α), leTarget i j prev →
      List.Pairwise ltKey (prev :: l) →
      (if (getAux i j prev l).i = i ∧ (getAux i j prev l).j = j
        then some (getAux i j prev l).value else none) = findVal i j (prev :: l) := by
  intro l
  induction l with
  | nil =>
    intro prev hp _
    rw [getAux_nil, findVal_cons, findVal_nil]
  | cons x t ih =>
    intro prev hp hs
    rcases List.pairwise_cons.mp hs with ⟨hprev, hxt⟩
    by_cases hx : leTarget i j x
    · have hpx : ltKey prev x := hprev x (List.mem_cons_self x t)
      have hpne : ¬ (prev.i = i ∧ prev.j = j) := by
        unfold leTarget at hx
        unfold ltKey at hpx
        omega
      rw [getAux_cons, if_pos hx, ih x hx hxt, findVal_cons (x := prev), if_neg hpne]
    · rw [getAux_cons, if_neg hx, findVal_cons (x := prev)]
      by_cases hpk : prev.i = i ∧ prev.j = j
      · rw [if_pos hpk, if_pos hpk]
      · rw [if_neg hpk, if_neg hpk]
        exact (findVal_eq_none_of_gt hx hxt).symm

theorem get_correct {m : SparseMatrix α} (hs : List.Pairwise ltKey m.storage)
    {i j : Nat} (hi : i < m.rows) (hj : j < m.cols) :
    m.get i j = .ok (m.valueAt i j) := by
  unfold SparseMatrix.get SparseMatrix.valueAt
  rw [if_neg (by omega)]
  rcases hst : m.storage with _ | ⟨h, t⟩
  · simp only [findVal_nil, Option.getD_none]
  · rw [hst] at hs
    show (if (getAux i j h (h :: t)).i = i ∧ (getAux i j h (h :: t)).j = j
        then Except.ok (getAux i j h (h :: t)).value else Except.ok m.D) =
      Except.ok ((findVal i j (h :: t)).getD m.D)
    by_cases hh : leTarget i j h
    · rw [getAux_cons, if_pos hh, ← getAux_spec i j t h hh hs]
      by_cases hk : (getAux i j h t).i = i ∧ (getAux i j h t).j = j
      · rw [if_pos hk, if_pos hk]; rfl
      · rw [if_neg hk, if_neg hk]; rfl
    · rw [getAux_cons, if_neg hh]
      have hke := not_keyEq_of_not_leTarget hh
      rw [if_neg hke, findVal_eq_none_of_gt hh hs, Option.getD_none]

theorem get_ok_iff (m : SparseMatrix α) (i j : Nat) :
    (∃ v, m.get i j = .ok v) ↔ (i < m.rows ∧ j < m.cols) := by
  unfold SparseMatrix.get
  by_cases h : i ≥ m.rows ∨ j ≥ m.cols
  · rw [if_pos h]
    constructor
    · rintro ⟨v, hv⟩; exact Except.noConfusion hv
    · intro hb; omega
  · rw [if_neg h]
    constructor
    · intro _; omega
    · intro _
      rcases m.storage with _ | ⟨hd, t⟩
      · exact ⟨m.D, rfl⟩
      · by_cases hk : (getAux i j hd (hd :: t)).i = i ∧ (getAux i j hd (hd :: t)).j = j
        · refine ⟨(getAux i j hd (hd :: t)).value, ?_⟩
          show (if (getAux i j hd (hd :: t)).i = i ∧ (getAux i j hd (hd :: t)).j = j
              then Except.ok (getAux i j hd (hd :: t)).value else Except.ok m.D) = _
          rw [if_pos hk]
        · refine ⟨m.D, ?_⟩
          show (if (getAux i j hd (hd :: t)).i = i ∧ (getAux i j hd (hd :: t)).j = j
              then Except.ok (getAux i j hd (hd :: t)).value else Except.ok m.D) = _
          rw [if_neg hk]

theorem get_err_iff (m : SparseMatrix α) (i j : Nat) :
    m.get i j = .error .outOfBounds ↔ (m.rows ≤ i ∨ m.cols ≤ j) := by
  constructor
  · intro hv
    by_contra hb
    push_neg at hb
    obtain ⟨v, hok⟩ := (get_ok_iff m i j).mpr ⟨by omega, by omega⟩
    rw [hok] at hv
    exact Except.noConfusion hv
  · intro hb
    unfold SparseMatrix.get
    rw [if_pos (by omega)]

end GetLemmas

section HistoryLemmas

variable {α : Type}

theorem runIns_D (hist : List (Nat × Nat × α)) :
    ∀ (m : SparseMatrix α), (runIns m hist).D = m.D := by
  induction hist with
  | nil => intro m; rfl
  | cons q t ih => intro m; exact (ih (m.add q.1 q.2.1 q.2.2)).trans (add_D m q.1 q.2.1 q.2.2)

theorem runIns_WF (hist : List (Nat × Nat × α)) :
    ∀ {m : SparseMatrix α}, WF m → WF (runIns m hist) := by
  induction hist with
  | nil => intro m h; exact h
  | cons q t ih => intro m h; exact ih (add_WF h q.1 q.2.1 q.2.2)

theorem runIns_append (m : SparseMatrix α) (h1 h2 : List (Nat × Nat × α)) :
    runIns m (h1 ++ h2) = runIns (runIns m h1) h2 := by
  simp [runIns, List.foldl_append]

theorem lastIns_concat (hist : List (Nat × Nat × α)) (q : Nat × Nat × α) (i j : Nat) :
    lastIns (hist ++ [q]) i j =
      if q.1 = i ∧ q.2.1 = j then some q.2.2 else lastIns hist i j := by
  simp [lastIns, List.foldl_append]

theorem runIns_valueAt (hist : List (Nat × Nat × α)) (m : SparseMatrix α) (i j : Nat) :
    (runIns m hist).valueAt i j = (lastIns hist i j).getD (m.valueAt i j) := by
  induction hist using List.reverseRecOn with
  | nil => rfl
  | append_singleton t q ih =>
    rw [runIns_append, lastIns_concat]
    show ((runIns m t).add q.1 q.2.1 q.2.2).valueAt i j = _
    rw [valueAt_add, ih]
    by_cases h : q.1 = i ∧ q.2.1 = j
    · rw [if_pos h, if_pos h]; rfl
    · rw [if_neg h, if_neg h]

theorem rows_le_applyOp (m : SparseMatrix α) (op : MOp α) :
    m.rows ≤ (applyOp m op).rows ∧ m.cols ≤ (applyOp m op).cols := by
  cases op with
  | ins i j v => exact ⟨rows_le_add m i j v, cols_le_add m i j v⟩
  | cl => exact ⟨Nat.le_refl _, Nat.le_refl _⟩
  | setD d => exact ⟨Nat.le_refl _, Nat.le_refl _⟩

theorem rows_le_applyOps (ops : List (MOp α)) :
    ∀ (m : SparseMatrix α), m.rows ≤ (applyOps m ops).rows ∧ m.cols ≤ (applyOps m ops).cols := by
  induction ops with
  | nil => intro m; exact ⟨Nat.le_refl _, Nat.le_refl _⟩
  | cons op t ih =>
    intro m
    have h1 := rows_le_applyOp m op
    have h2 := ih (applyOp m op)
    exact ⟨Nat.le_trans h1.1 h2.1, Nat.le_trans h1.2 h2.2⟩

end HistoryLemmas

section CopyLemmas

variable {α β : Type}

theorem copyLoop_id (l : List (Element α)) :
    ∀ (m : SparseMatrix α),
      copyLoop (fun v => some v) m l =
        some (l.foldl (fun m e => m.add e.i e.j e.value) m) := by
  induction l with
  | nil => intro m; rfl
  | cons e t ih => intro m; exact ih (m.add e.i e.j e.value)

theorem copyLoop_none_iff (f : β → Option α) (l : List (Element β)) :
    ∀ (m : SparseMatrix α),
      (copyLoop f m l = none ↔ ∃ e ∈ l, f e.value = none) := by
  induction l with
  | nil => intro m; simp [copyLoop]
  | cons e t ih =>
    intro m
    unfold copyLoop
    rcases hfe : f e.value with _ | v
    · simp only [List.mem_cons]
      constructor
      · intro _; exact ⟨e, Or.inl rfl, hfe⟩
      · intro _; trivial
    · rw [ih]
      constructor
      · rintro ⟨y, hy, h⟩; exact ⟨y, List.mem_cons_of_mem _ hy, h⟩
      · rintro ⟨y, hy, h⟩
        rcases List.mem_cons.mp hy with h1 | h1
        · rw [h1] at h; rw [h] at hfe; exact Option.noConfusion hfe
        · exact ⟨y, h1, h⟩

theorem foldl_add_append :
    ∀ (l : List (Element α)) (m : SparseMatrix α),
      List.Pairwise ltKey (m.storage ++ l) →
      (∀ e ∈ l, e.i < m.rows ∧ e.j < m.cols) →
      l.foldl (fun m e => m.add e.i e.j e.value) m =
        { rows := m.rows, cols := m.cols, D := m.D,
          size := m.size + l.length, storage := m.storage ++ l } := by
  intro l
  induction l with
  | nil =>
    intro m _ _
    cases m
    simp
  | cons e t ih =>
    intro m hs hb
    have hlt : ∀ x ∈ m.storage, ltKey x e := by
      intro x hx
      exact (List.pairwise_append.mp hs).2.2 x hx e (List.mem_cons_self e t)
    have heta : (⟨e.i, e.j, e.value⟩ : Element α) = e := rfl
    have hb1 := hb e (List.mem_cons_self e t)
    have hr : ¬ (e.i + 1 > m.rows) := by omega
    have hc : ¬ (e.j + 1 > m.cols) := by omega
    have hadd : m.add e.i e.j e.value =
        { rows := m.rows, cols := m.cols, D := m.D,
          size := m.size + 1, storage := m.storage ++ [e] } := by
      unfold SparseMatrix.add
      rw [heta, insertSorted_append hlt]
      simp [hr, hc]
    rw [List.foldl_cons, hadd, ih]
    · simp [List.append_assoc]
      omega
    · simp only [List.append_assoc, List.singleton_append]
      exact hs
    · intro x hx
      have := hb x (List.mem_cons_of_mem _ hx)
      simpa using this

end CopyLemmas

section CopyFromLemmas

variable {α β : Type}

theorem copyFrom_error_state {f : β → Option α} {tgt : SparseMatrix α} {src : SparseMatrix β}
    {s : SparseMatrix α} (h : copyFrom f tgt src = .error s) :
    s = { rows := tgt.rows, cols := tgt.cols, D := tgt.D, size := 0, storage := [] } := by
  unfold copyFrom at h
  rcases hfd : f src.D with _ | d
  · simp only [hfd] at h
    injection h with h2
    exact h2.symm
  · simp only [hfd] at h
    rcases hcl : copyLoop f { tgt with rows := src.rows, cols := src.cols, D := d } src.storage
      with _ | m'
    · simp only [hcl] at h
      injection h with h2
      exact h2.symm
    · simp only [hcl] at h
      exact Except.noConfusion h

theorem copyFrom_error_restores {f : β → Option α} {tgt : SparseMatrix α}
    {src : SparseMatrix β} {s : SparseMatrix α} (h : copyFrom f tgt src = .error s)
    (h0 : tgt.size = 0) (h1 : tgt.storage = []) : s = tgt := by
  rw [copyFrom_error_state h]
  cases tgt
  simp at h0 h1
  simp [h0, h1]

theorem copyFrom_error_iff (f : β → Option α) (tgt : SparseMatrix α) (src : SparseMatrix β) :
    (∃ s, copyFrom f tgt src = .error s) ↔
      (f src.D = none ∨ ∃ e ∈ src.storage, f e.value = none) := by
  unfold copyFrom
  rcases hfd : f src.D with _ | d
  · simp only [hfd]
    constructor
    · intro _; exact Or.inl trivial
    · intro _; exact ⟨_, rfl⟩
  · simp only [hfd]
    rcases hcl : copyLoop f { tgt with rows := src.rows, cols := src.cols, D := d } src.storage
      with _ | m'
    · simp only [hcl]
      constructor
      · intro _
        exact Or.inr ((copyLoop_none_iff f src.storage _).mp hcl)
      · intro _; exact ⟨_, rfl⟩
    · simp only [hcl]
      constructor
      · rintro ⟨s, hs⟩; exact Except.noConfusion hs
      · rintro (h | h)
        · exact Option.noConfusion h
        · have := (copyLoop_none_iff f src.storage
            { tgt with rows := src.rows, cols := src.cols, D := d }).mpr h
          rw [hcl] at this
          exact Option.noConfusion this

theorem assignSame_error {f : α → Option α} {z : α} {tgt src s : SparseMatrix α}
    (h : assignSame f z tgt src = .error s) : s = tgt := by
  unfold assignSame at h
  rcases hcf : copyFrom f { rows := 0, cols := 0, D := z, size := 0, storage := [] } src
    with s' | m'
  · simp only [hcf] at h
    injection h with h2
    exact h2.symm
  · simp only [hcf] at h
    exact Except.noConfusion h

theorem copyFrom_id_of_WF {src : SparseMatrix α} (hw : WF src) (z : α) :
    copyFrom (fun v => some v) (SparseMatrix.ofD z) src = .ok src := by
  obtain ⟨hs, hn, hb⟩ := hw
  have hstart : copyLoop (fun v => some v)
      { rows := src.rows, cols := src.cols, D := src.D, size := 0, storage := [] } src.storage
      = some src := by
    rw [copyLoop_id, foldl_add_append src.storage _ (by simpa using hs) (by simpa using hb)]
    cases src with
    | mk r c d n st =>
      simp at hn ⊢
      exact hn.symm
  have hred : copyFrom (fun v => some v) (SparseMatrix.ofD z) src =
      (match copyLoop (fun v => some v)
        { rows := src.rows, cols := src.cols, D := src.D, size := 0, storage := [] }
        src.storage with
      | some m => Except.ok m
      | none => Except.error (SparseMatrix.ofD z)) := rfl
  rw [hred, hstart]

end CopyFromLemmas

section EvaluateLemmas

variable {α : Type}

theorem foldl_range_count (q : Nat → Bool) (n : Nat) :
    ∀ (c : Nat),
      (List.range n).foldl (fun c j => if q j then c + 1 else c) c =
        c + ∑ j in Finset.range n, (if q j then 1 else 0) := by
  induction n with
  | zero => intro c; simp
  | succ n ih =>
    intro c
    rw [List.range_succ, List.foldl_append, ih, Finset.sum_range_succ]
    simp only [List.foldl_cons, List.foldl_nil]
    by_cases h : q n
    · rw [if_pos h, if_pos h]; omega
    · rw [if_neg h, if_neg h]; omega

theorem evaluate_eq_sum [DecidableEq α] (m : SparseMatrix α) (p : Element α → Bool) :
    evaluate m p =
      ∑ i in Finset.range m.rows, ∑ j in Finset.range m.cols,
        (if p ⟨i, j, m.val i j⟩ then 1 else 0) := by
  have hcell : ∀ (i j : Nat) (c : Nat),
      (if p ⟨i, j, m.val i j⟩ then c + 1
        else if m.val i j = m.D then (if p ⟨i, j, m.D⟩ then c + 1 else c) else c) =
      (if p ⟨i, j, m.val i j⟩ then c + 1 else c) := by
    intro i j c
    by_cases h1 : p ⟨i, j, m.val i j⟩ = true
    · simp [h1]
    · by_cases h2 : m.val i j = m.D
      · have h3 : p ⟨i, j, m.D⟩ = false := by
          rw [← h2]
          simpa using h1
        simp [h1, h2, h3]
      · simp [h1, h2]
  have hinner : ∀ (i : Nat) (c : Nat),
      (List.range m.cols).foldl (fun c j =>
        if p ⟨i, j, m.val i j⟩ then c + 1
        else if m.val i j = m.D then (if p ⟨i, j, m.D⟩ then c + 1 else c) else c) c =
      c + ∑ j in Finset.range m.cols, (if p ⟨i, j, m.val i j⟩ then 1 else 0) := by
    intro i
    have hgen : ∀ (l : List Nat) (c : Nat),
        l.foldl (fun c j =>
          if p ⟨i, j, m.val i j⟩ then c + 1
          else if m.val i j = m.D then (if p ⟨i, j, m.D⟩ then c + 1 else c) else c) c =
        l.foldl (fun c j => if p ⟨i, j, m.val i j⟩ then c + 1 else c) c := by
      intro l
      induction l with
      | nil => intro c; rfl
      | cons j t ih =>
        intro c
        rw [List.foldl_cons, List.foldl_cons, hcell i j c]
        exact ih _
    intro c
    rw [hgen (List.range m.cols) c]
    exact foldl_range_count (fun j => p ⟨i, j, m.val i j⟩) m.cols c
  have houter : ∀ (n : Nat) (c : Nat),
      (List.range n).foldl (fun c i => (List.range m.cols).foldl (fun c j =>
        if p ⟨i, j, m.val i j⟩ then c + 1
        else if m.val i j = m.D then (if p ⟨i, j, m.D⟩ then c + 1 else c) else c) c) c =
      c + ∑ i in Finset.range n, ∑ j in Finset.range m.cols,
        (if p ⟨i, j, m.val i j⟩ then 1 else 0) := by
    intro n
    induction n with
    | zero => intro c; simp
    | succ n ih =>
      intro c
      rw [List.range_succ, List.foldl_append, ih, Finset.sum_range_succ]
      simp only [List.foldl_cons, List.foldl_nil]
      rw [hinner n _, Nat.add_assoc]
  show (List.range m.rows).foldl (fun c i => (List.range m.cols).foldl (fun c j =>
      if p ⟨i, j, m.val i j⟩ then c + 1
      else if m.val i j = m.D then (if p ⟨i, j, m.D⟩ then c + 1 else c) else c) c) 0 = _
  rw [houter m.rows 0]
  simp

end EvaluateLemmas

section MultiplyLemmas

theorem mulStep_dims (a b : Element Int) (r : SparseMatrix Int)
    (hi : a.i < r.rows) (hj : b.j < r.cols) :
    (mulStep a b r).rows = r.rows ∧ (mulStep a b r).cols = r.cols ∧
      (mulStep a b r).D = r.D := by
  unfold mulStep
  by_cases h : a.j = b.i
  · rw [if_pos h]
    refine ⟨?_, ?_, rfl⟩
    · rw [add_rows]
      split <;> omega
    · rw [add_cols]
      split <;> omega
  · rw [if_neg h]; exact ⟨rfl, rfl, rfl⟩

theorem mulStep_valueAt (a b : Element Int) (r : SparseMatrix Int) (i k : Nat) :
    (mulStep a b r).valueAt i k =
      r.valueAt i k + (if a.i = i ∧ b.j = k ∧ a.j = b.i then a.value * b.value else 0) := by
  unfold mulStep
  by_cases h : a.j = b.i
  · rw [if_pos h, valueAt_add]
    by_cases h2 : a.i = i ∧ b.j = k
    · rw [if_pos h2, if_pos ⟨h2.1, h2.2, h⟩, h2.1, h2.2]
    · rw [if_neg h2, if_neg (by tauto)]
      simp
  · rw [if_neg h, if_neg (by tauto)]
    simp

theorem mulInner (a : Element Int) (bs : List (Element Int)) :
    ∀ (r : SparseMatrix Int), a.i < r.rows → (∀ b ∈ bs, b.j < r.cols) →
      (bs.foldl (fun r b => mulStep a b r) r).rows = r.rows ∧
      (bs.foldl (fun r b => mulStep a b r) r).cols = r.cols ∧
      (bs.foldl (fun r b => mulStep a b r) r).D = r.D ∧
      ∀ i k, (bs.foldl (fun r b => mulStep a b r) r).valueAt i k =
        r.valueAt i k +
          (bs.map (fun b =>
            if a.i = i ∧ b.j = k ∧ a.j = b.i then a.value * b.value else 0)).sum := by
  induction bs with
  | nil =>
    intro r _ _
    exact ⟨rfl, rfl, rfl, fun i k => by simp⟩
  | cons b t ih =>
    intro r hr hb
    have hbj := hb b (List.mem_cons_self b t)
    have hstep := mulStep_dims a b r hr hbj
    have h2 := ih (mulStep a b r) (by rw [hstep.1]; exact hr)
      (by intro x hx; rw [hstep.2.1]; exact hb x (List.mem_cons_of_mem _ hx))
    refine ⟨?_, ?_, ?_, ?_⟩
    · rw [List.foldl_cons, h2.1, hstep.1]
    · rw [List.foldl_cons, h2.2.1, hstep.2.1]
    · rw [List.foldl_cons, h2.2.2.1, hstep.2.2]
    · intro i k
      rw [List.foldl_cons, h2.2.2.2 i k, mulStep_valueAt, List.map_cons, List.sum_cons]
      ring

theorem mulOuter (as bs : List (Element Int)) :
    ∀ (r : SparseMatrix Int), (∀ a ∈ as, a.i < r.rows) → (∀ b ∈ bs, b.j < r.cols) →
      (as.foldl (fun r a => bs.foldl (fun r b => mulStep a b r) r) r).rows = r.rows ∧
      (as.foldl (fun r a => bs.foldl (fun r b => mulStep a b r) r) r).cols = r.cols ∧
      (as.foldl (fun r a => bs.foldl (fun r b => mulStep a b r) r) r).D = r.D ∧
      ∀ i k, (as.foldl (fun r a => bs.foldl (fun r b => mulStep a b r) r) r).valueAt i k =
        r.valueAt i k +
          (as.map (fun a => (bs.map (fun b =>
            if a.i = i ∧ b.j = k ∧ a.j = b.i then a.value * b.value else 0)).sum)).sum := by
  induction as with
  | nil =>
    intro r _ _
    exact ⟨rfl, rfl, rfl, fun i k => by simp⟩
  | cons a t ih =>
    intro r hr hb
    have hai := hr a (List.mem_cons_self a t)
    have hstep := mulInner a bs r hai hb
    have h2 := ih (bs.foldl (fun r b => mulStep a b r) r)
      (by intro x hx; rw [hstep.1]; exact hr x (List.mem_cons_of_mem _ hx))
      (by intro x hx; rw [hstep.2.1]; exact hb x hx)
    refine ⟨?_, ?_, ?_, ?_⟩
    · rw [List.foldl_cons, h2.1, hstep.1]
    · rw [List.foldl_cons, h2.2.1, hstep.2.1]
    · rw [List.foldl_cons, h2.2.2.1, hstep.2.2.1]
    · intro i k
      rw [List.foldl_cons, h2.2.2.2 i k, hstep.2.2.2 i k, List.map_cons, List.sum_cons]
      ring

theorem valueAt_init (rows cols : Nat) (D : Int) (i k : Nat) :
    SparseMatrix.valueAt { rows := rows, cols := cols, D := D, size := 0, storage := [] } i k
      = D := by
  unfold SparseMatrix.valueAt
  rw [findVal_nil]
  rfl

end MultiplyLemmas

/-- C1: for every constructed matrix and insertion history, at every
coordinate inside the final declared bounds `get` returns the value of the
most recent insert at that coordinate, or the (unchanged) default value if
no insert at the coordinate ever occurred; `get` is a pure function of the
matrix, so it has no effect on it. -/
theorem lookup_reflects_last_insert {α : Type} (m0 : SparseMatrix α)
    (h0 : m0.storage = [] ∧ m0.size = 0) (hist : List (Nat × Nat × α)) (i j : Nat)
    (hi : i < (runIns m0 hist).rows) (hj : j < (runIns m0 hist).cols) :
    (runIns m0 hist).get i j = .ok ((lastIns hist i j).getD m0.D) := by
  have hwf0 : WF m0 := by
    refine ⟨?_, ?_, ?_⟩
    · rw [h0.1]; exact List.Pairwise.nil
    · rw [h0.1, h0.2]; rfl
    · intro e he; rw [h0.1] at he; exact absurd he (List.not_mem_nil e)
  have hwf := runIns_WF hist hwf0
  rw [get_correct hwf.1 hi hj, runIns_valueAt]
  have hv0 : m0.valueAt i j = m0.D := by
    unfold SparseMatrix.valueAt
    rw [h0.1, findVal_nil]
    rfl
  rw [hv0]

theorem lookup_reflects_last_insert_w :
    (runIns (SparseMatrix.ofD (0 : Int)) [(1, 1, 4), (0, 0, 2), (1, 1, 7)]).get 1 1 =
      .ok 7 :=
  lookup_reflects_last_insert (SparseMatrix.ofD (0 : Int)) ⟨rfl, rfl⟩
    [(1, 1, 4), (0, 0, 2), (1, 1, 7)] 1 1 (by decide) (by decide)

/-- C2: after any sequence of insertions into any constructed matrix, the
storage is strictly increasing in row-major key order, holds no two entries
with the same `(row, col)` key, and the stored count equals the storage
length. -/
theorem insert_keeps_order_unique_count {α : Type} (m0 : SparseMatrix α)
    (h0 : m0.storage = [] ∧ m0.size = 0) (hist : List (Nat × Nat × α)) :
    List.Pairwise ltKey (runIns m0 hist).storage ∧
    List.Pairwise (fun a b : Element α => ¬ (a.i = b.i ∧ a.j = b.j))
      (runIns m0 hist).storage ∧
    (runIns m0 hist).size = (runIns m0 hist).storage.length := by
  have hwf0 : WF m0 := by
    refine ⟨?_, ?_, ?_⟩
    · rw [h0.1]; exact List.Pairwise.nil
    · rw [h0.1, h0.2]; rfl
    · intro e he; rw [h0.1] at he; exact absurd he (List.not_mem_nil e)
  have hwf := runIns_WF hist hwf0
  exact ⟨hwf.1, hwf.1.imp (fun hlt => not_eq_of_ltKey hlt), hwf.2.1⟩

theorem insert_keeps_order_unique_count_w :
    List.Pairwise ltKey (runIns (SparseMatrix.ofD (0 : Int)) [(1, 1, 4), (0, 0, 2)]).storage ∧
    List.Pairwise (fun a b : Element Int => ¬ (a.i = b.i ∧ a.j = b.j))
      (runIns (SparseMatrix.ofD (0 : Int)) [(1, 1, 4), (0, 0, 2)]).storage ∧
    (runIns (SparseMatrix.ofD (0 : Int)) [(1, 1, 4), (0, 0, 2)]).size =
      (runIns (SparseMatrix.ofD (0 : Int)) [(1, 1, 4), (0, 0, 2)]).storage.length :=
  insert_keeps_order_unique_count (SparseMatrix.ofD (0 : Int)) ⟨rfl, rfl⟩
    [(1, 1, 4), (0, 0, 2)]

/-- C3: inserting twice at the same coordinate leaves the stored count
unchanged after the second insert (the second insert replaces the node) and
`get` then returns the second value. -/
theorem overwrite_keeps_size_updates_lookup {α : Type} {m : SparseMatrix α} (hw : WF m)
    (i j : Nat) (v1 v2 : α) :
    ((m.add i j v1).add i j v2).size = (m.add i j v1).size ∧
    ((m.add i j v1).add i j v2).get i j = .ok v2 := by
  have hw1 : WF (m.add i j v1) := add_WF hw i j v1
  have hw2 : WF ((m.add i j v1).add i j v2) := add_WF hw1 i j v2
  constructor
  · rw [add_size]
    have hfound : findVal i j (m.add i j v1).storage = some v1 := by
      rw [add_storage, insertSorted_findVal]
      simp
    rcases Option.map_eq_some'.mp hfound with ⟨y, hy, hyv⟩
    have hymem := List.mem_of_find?_eq_some hy
    have hpred := List.find?_some hy
    have hkey : y.i = i ∧ y.j = j := by simpa using hpred
    rw [if_pos ((insertSorted_replaced hw1.1).mpr ⟨y, hymem, hkey⟩)]
  · rw [get_correct hw2.1
      (by have := succ_le_add_rows (m.add i j v1) i j v2; omega)
      (by have := succ_le_add_cols (m.add i j v1) i j v2; omega), valueAt_add]
    simp

theorem overwrite_keeps_size_updates_lookup_w :
    (((SparseMatrix.ofD (0 : Int)).add 0 0 1).add 0 0 2).size =
      ((SparseMatrix.ofD (0 : Int)).add 0 0 1).size ∧
    (((SparseMatrix.ofD (0 : Int)).add 0 0 1).add 0 0 2).get 0 0 = .ok 2 :=
  overwrite_keeps_size_updates_lookup (by decide) 0 0 1 2

/-- C4: `get` fails with the out-of-bounds error exactly when `i ≥ rows` or
`j ≥ cols` — in particular `get rows 0` and `get 0 cols` always fail — while
`add` performs no bounds check and always succeeds: the inserted value is
observable at its coordinate immediately afterwards. -/
theorem bounds_check_exact {α : Type} :
    (∀ (m : SparseMatrix α) (i j : Nat),
      m.get i j = .error .outOfBounds ↔ (i ≥ m.rows ∨ j ≥ m.cols)) ∧
    (∀ m : SparseMatrix α, m.get m.rows 0 = .error .outOfBounds) ∧
    (∀ m : SparseMatrix α, m.get 0 m.cols = .error .outOfBounds) ∧
    (∀ (m : SparseMatrix α), WF m → ∀ (i j : Nat) (v : α),
      (m.add i j v).get i j = .ok v) := by
  refine ⟨?_, ?_, ?_, ?_⟩
  · intro m i j
    rw [get_err_iff]
  · intro m
    rw [get_err_iff]
    exact Or.inl (Nat.le_refl _)
  · intro m
    rw [get_err_iff]
    exact Or.inr (Nat.le_refl _)
  · intro m hw i j v
    have hw1 := add_WF hw i j v
    rw [get_correct hw1.1
      (by have := succ_le_add_rows m i j v; omega)
      (by have := succ_le_add_cols m i j v; omega), valueAt_add]
    simp

theorem bounds_check_exact_w :
    ((SparseMatrix.ofD (0 : Int)).add 2 3 5).get 2 3 = .ok 5 :=
  bounds_check_exact.2.2.2 (SparseMatrix.ofD (0 : Int)) (by decide) 2 3 5

/-- C5 (counterexample): the claim that a cell whose stored value differs
from the default and fails the predicate is retested with the default value
(and counted when that passes) is false: for the 1×1 matrix with default 0,
stored value 5 and the predicate testing for 0, the source `evaluate`
returns 0 while the spec-worded two-test count returns 1. -/
theorem evaluate_two_test_refuted : evaluate exM exP ≠ evaluateTwoTest exM exP := by
  decide

/-- C5 (amended): in `evaluate` the fallback test against the default value
runs exactly when the cell's value already equals the current default — it
repeats the failed first test and never adds to the count — and a cell whose
stored value differs from the default is tested exactly once, with no
retest. -/
theorem evaluate_fallback_on_default_only {α : Type} [DecidableEq α]
    (m : SparseMatrix α) (p : Element α → Bool) :
    evaluate m p = evaluateDefaultEcho m p := by
  rw [evaluate_eq_sum]
  unfold evaluateDefaultEcho
  apply Finset.sum_congr rfl
  intro i _
  apply Finset.sum_congr rfl
  intro j _
  by_cases h1 : p ⟨i, j, m.val i j⟩ = true
  · simp [h1]
  · by_cases h2 : m.val i j = m.D
    · have h3 : p ⟨i, j, m.D⟩ = false := by
        rw [← h2]
        simpa using h1
      simp [h1, h2, h3]
    · simp [h1, h2]

/-- C6: multiplication is defined exactly when the inner dimensions agree,
failing with the dimension-mismatch error (and producing no result)
otherwise; on success the result has the left operand's row count, the right
operand's column count and the left operand's default value, and every
result cell carries the default plus the products accumulated over exactly
the pairs of explicitly stored entries that share the inner index. -/
theorem multiply_contract :
    (∀ A B : SparseMatrix Int, multiply A B = .error .dimensionMismatch ↔ A.cols ≠ B.rows) ∧
    (∀ A B : SparseMatrix Int, A.cols = B.rows →
      (∀ a ∈ A.storage, a.i < A.rows) → (∀ b ∈ B.storage, b.j < B.cols) →
      ∃ R, multiply A B = .ok R ∧ R.rows = A.rows ∧ R.cols = B.cols ∧ R.D = A.D ∧
        ∀ i k, R.valueAt i k = A.D +
          (A.storage.map (fun a => (B.storage.map (fun b =>
            if a.i = i ∧ b.j = k ∧ a.j = b.i then a.value * b.value else 0)).sum)).sum) := by
  constructor
  · intro A B
    unfold multiply
    by_cases h : A.cols = B.rows
    · rw [if_pos h]
      constructor
      · intro hc; exact Except.noConfusion hc
      · intro hc; exact absurd h hc
    · rw [if_neg h]
      constructor
      · intro _; exact h
      · intro _; rfl
  · intro A B hdim hA hB
    have houter := mulOuter A.storage B.storage
      { rows := A.rows, cols := B.cols, D := A.D, size := 0, storage := [] }
      (by intro a ha; exact hA a ha)
      (by intro b hb; exact hB b hb)
    refine ⟨_, ?_, houter.1, houter.2.1, houter.2.2.1, ?_⟩
    · unfold multiply
      rw [if_pos hdim]
    · intro i k
      rw [houter.2.2.2 i k, valueAt_init]

theorem multiply_contract_w :
    ∃ R, multiply exA exB = .ok R ∧ R.rows = exA.rows ∧ R.cols = exB.cols ∧
      R.D = exA.D ∧
      ∀ i k, R.valueAt i k = exA.D +
        (exA.storage.map (fun a => (exB.storage.map (fun b =>
          if a.i = i ∧ b.j = k ∧ a.j = b.i then a.value * b.value else 0)).sum)).sum :=
  multiply_contract.2 exA exB rfl (by decide) (by decide)

/-- C7: the generic copy is transactional as observed by its callers: a
failure during the element loop leaves a caller whose storage was empty
before the call (as it is in both copy constructors) with exactly its
pre-call rows, cols, default and (empty) storage; the copy-and-swap
assignment leaves any target exactly unchanged on failure; and a failure is
raised exactly when converting the source default or one of the source
elements fails. -/
theorem copy_transactional {α β : Type} :
    (∀ (f : β → Option α) (tgt : SparseMatrix α) (src : SparseMatrix β)
      (s : SparseMatrix α),
      copyFrom f tgt src = .error s → tgt.size = 0 → tgt.storage = [] → s = tgt) ∧
    (∀ (f : β → Option α) (tgt : SparseMatrix α) (src : SparseMatrix β),
      (∃ s, copyFrom f tgt src = .error s) ↔
        (f src.D = none ∨ ∃ e ∈ src.storage, f e.value = none)) ∧
    (∀ (f : α → Option α) (z : α) (tgt src s : SparseMatrix α),
      assignSame f z tgt src = .error s → s = tgt) :=
  ⟨fun _ _ _ _ h h0 h1 => copyFrom_error_restores h h0 h1,
   fun f tgt src => copyFrom_error_iff f tgt src,
   fun _ _ _ _ _ h => assignSame_error h⟩

theorem copy_transactional_w :
    copyFrom exConv exTgt exM = Except.error exTgt := by
  have h : copyFrom exConv exTgt exM = Except.error
      { rows := 3, cols := 4, D := 7, size := 0, storage := [] } := by decide
  rw [h, copy_transactional.1 exConv exTgt exM _ h rfl rfl]

/-- C8: a same-type copy of a well-formed matrix reproduces its row count,
column count, default value and every in-bounds observation, and afterwards
mutating the copy (insert, clear, default change) never changes the
original, which keeps its own value throughout. -/
theorem copy_fidelity {α : Type} (src : SparseMatrix α) (z : α) (hw : WF src) :
    ∃ m2, copyFrom (fun v => some v) (SparseMatrix.ofD z) src = .ok m2 ∧
      m2.rows = src.rows ∧ m2.cols = src.cols ∧ m2.D = src.D ∧
      (∀ i j, m2.get i j = src.get i j) ∧
      (∀ ops : List (MOp α),
        (ops.foldl (fun q op => (q.1, applyOp q.2 op)) (src, m2)).1 = src) := by
  refine ⟨src, copyFrom_id_of_WF hw z, rfl, rfl, rfl, fun i j => rfl, ?_⟩
  intro ops
  have hfst : ∀ (ops : List (MOp α)) (q : SparseMatrix α × SparseMatrix α),
      (ops.foldl (fun q op => (q.1, applyOp q.2 op)) q).1 = q.1 := by
    intro ops
    induction ops with
    | nil => intro q; rfl
    | cons op t ih => intro q; rw [List.foldl_cons]; exact ih _
  exact hfst ops (src, src)

theorem copy_fidelity_w :
    ∃ m2, copyFrom (fun v => some v) (SparseMatrix.ofD (0 : Int)) exC8 = .ok m2 ∧
      m2.rows = exC8.rows ∧ m2.cols = exC8.cols ∧ m2.D = exC8.D ∧
      (∀ i j, m2.get i j = exC8.get i j) ∧
      (∀ ops : List (MOp Int),
        (ops.foldl (fun q op => (q.1, applyOp q.2 op)) (exC8, m2)).1 = exC8) :=
  copy_fidelity exC8 0 (by decide)

/-- C9: declared extents never decrease across any sequence of mutating
operations; an insert sets the row extent to `i+1` exactly when `i+1`
exceeds it (and symmetrically for columns), otherwise leaves it unchanged;
and `clear` empties the storage and resets the stored count while leaving
rows, cols and the default value untouched. -/
theorem growth_monotone_clear_frame {α : Type} :
    (∀ (m : SparseMatrix α) (ops : List (MOp α)),
      m.rows ≤ (applyOps m ops).rows ∧ m.cols ≤ (applyOps m ops).cols) ∧
    (∀ (m : SparseMatrix α) (i j : Nat) (v : α),
      (m.add i j v).rows = (if i + 1 > m.rows then i + 1 else m.rows) ∧
      (m.add i j v).cols = (if j + 1 > m.cols then j + 1 else m.cols)) ∧
    (∀ m : SparseMatrix α, m.clear.storage = [] ∧ m.clear.size = 0 ∧
      m.clear.rows = m.rows ∧ m.clear.cols = m.cols ∧ m.clear.D = m.D) := by
  refine ⟨?_, ?_, ?_⟩
  · intro m ops
    exact rows_le_applyOps ops m
  · intro m i j v
    exact ⟨add_rows m i j v, add_cols m i j v⟩
  · intro m
    exact ⟨rfl, rfl, rfl, rfl, rfl⟩

/-- C10: `evaluate` returns exactly the number of in-bounds cells whose
logical value satisfies the predicate — each cell is counted at most once,
because the fallback branch fires only when the cell's value equals the
default, in which case it repeats the already-failed test and never
increments the count — and the total never exceeds rows·cols. -/
theorem evaluate_counts_exactly {α : Type} [DecidableEq α] (m : SparseMatrix α)
    (p : Element α → Bool) :
    evaluate m p =
      (((Finset.range m.rows) ×ˢ (Finset.range m.cols)).filter
        (fun q => p ⟨q.1, q.2, m.val q.1 q.2⟩ = true)).card ∧
    evaluate m p ≤ m.rows * m.cols := by
  have hcard : (((Finset.range m.rows) ×ˢ (Finset.range m.cols)).filter
      (fun q => p ⟨q.1, q.2, m.val q.1 q.2⟩ = true)).card =
      ∑ i in Finset.range m.rows, ∑ j in Finset.range m.cols,
        (if p ⟨i, j, m.val i j⟩ then 1 else 0) := by
    rw [Finset.card_filter, Finset.sum_product]
  constructor
  · rw [evaluate_eq_sum, hcard]
  · rw [evaluate_eq_sum]
    have h1 : ∀ i ∈ Finset.range m.rows,
        ∑ j in Finset.range m.cols, (if p ⟨i, j, m.val i j⟩ then 1 else 0) ≤ m.cols := by
      intro i _
      have h2 : ∑ j in Finset.range m.cols, (if p ⟨i, j, m.val i j⟩ then 1 else 0) ≤
          ∑ _j in Finset.range m.cols, 1 :=
        Finset.sum_le_sum (fun j _ => by split <;> omega)
      simpa using h2
    have h3 : ∑ i in Finset.range m.rows,
        ∑ j in Finset.range m.cols, (if p ⟨i, j, m.val i j⟩ then 1 else 0) ≤
        ∑ _i in Finset.range m.rows, m.cols := Finset.sum_le_sum h1
    simpa [Finset.sum_const, Finset.card_range] using h3
